import Mathlib

/-!
Verification development for the plain-text region subsystem of a math editor
(source: src/src/commands/text.ts; classes TextBlock, TextPiece,
TextBlockFuseChildren, RootMathCommand, RootTextBlock).

Modelling conventions:
- A TextPiece's textStr is a Lean list of characters ( Str ).
- A TextBlock (text region) is the list of its TextPiece children, left to
  right: List Str.
- A cursor inside a region is the gap index g, 0 ≤ g ≤ pieces.length:
  cursor left neighbor is pieces[g-1] (absent when g = 0), cursor right
  neighbor is pieces[g] (absent when g = pieces.length).
- The outer tree (children of a root block) is a list of nodes; a cursor
  there is again a gap index.  Removing or inserting a node shifts gap
  indices exactly the way the source re-links cursor endpoints.
- The mirrored DOM text nodes are modelled where needed (fuse, C9) as a list
  of rendered nodes; elsewhere the DOM mutations (appendData, deleteData,
  splitText) mirror the textStr mutations one for one and are not duplicated.
- JavaScript undefined flowing through arithmetic (the anticursorPosition
  cache in TextBlock.seek) is modelled with Option Nat, with the JS
  semantics of ===, < and subtraction-then-slice made explicit.
-/

/-- Direction values L and R of the source (the only two valid directions). -/
inductive Dir where
  | L : Dir
  | R : Dir
deriving DecidableEq, Repr

/-- Opposite direction, the -dir of the source. -/
def Dir.opp : Dir → Dir
  | .L => .R
  | .R => .L

/-- Character data of a TextPiece (textStr) as a list of characters. -/
abbrev Str := List Char

/-- TextPiece.appendText: textStr += text. -/
def appendText (s t : Str) : Str := s ++ t

/-- TextPiece.prependText: textStr = text + textStr. -/
def prependText (s t : Str) : Str := t ++ s

/-- TextPiece.insTextAtDirEnd: appendText when dir = R, prependText when dir = L. -/
def insTextAtDirEnd (s t : Str) (dir : Dir) : Str :=
  match dir with
  | .R => appendText s t
  | .L => prependText s t

/-- TextPiece.splitRight(i): this.textStr becomes the prefix of length i
(slice(0, i)) and a new right sibling piece holds the rest (slice(i)).
Returns (truncated this, new piece). -/
def splitRight (s : Str) (i : Nat) : Str × Str := (s.take i, s.drop i)

/-- TextPiece.endChar(dir, text): charAt(0) for L, charAt(length - 1) for R.
JavaScript charAt returns a string, empty on an empty input, so the result
is a Str of length at most one. -/
def endChar (dir : Dir) (s : Str) : Str :=
  match dir with
  | .L => s.take 1
  | .R => s.drop (s.length - 1)

/-- Neighbor of the cursor gap g in direction dir: pieces[g] for R,
pieces[g-1] for L (absent at the ends). -/
def cursorNbr (dir : Dir) (ps : List Str) (g : Nat) : Option Str :=
  match dir with
  | .R => ps[g]?
  | .L => match g with
    | 0 => none
    | n + 1 => ps[n]?

/-- TextPiece.deleteTowards(dir, cursor), lifted to the region: the target
piece is the cursor's dir neighbor (this = cursor[dir]).  When more than one
character remains, one character is removed from the end nearest the
opposite of dir (deleteData on the mirror happens in lock step) and that
character is announced; when at most one character remains the whole piece
is removed from the tree, the cursor's dir pointer is re-linked to the
piece's former dir neighbor (here: index shifting of the gap), and the whole
remaining textStr is announced.  Returns (pieces, cursor gap, announced). -/
def regionDeleteTowards (dir : Dir) (ps : List Str) (g : Nat) : List Str × Nat × Str :=
  match dir with
  | .R =>
    let s := ps.getD g []
    if 1 < s.length then (ps.set g (s.drop 1), g, s.take 1)
    else (ps.eraseIdx g, g, s)
  | .L =>
    let s := ps.getD (g - 1) []
    if 1 < s.length then (ps.set (g - 1) (s.take (s.length - 1)), g, s.drop (s.length - 1))
    else (ps.eraseIdx (g - 1), g - 1, s)

/-- TextPiece.moveTowards(dir, cursor), lifted to the region: this is the
cursor's dir neighbor.  The character at this's end nearest the opposite of
dir is inserted at the dir end of the piece on the cursor's other side
(this[-dir]; in a TextBlock every sibling is a TextPiece), or a fresh
one-character piece is created on that side when no neighbor exists; then
this.deleteTowards(dir, cursor) runs.  Returns (pieces, cursor gap). -/
def regionMoveTowards (dir : Dir) (ps : List Str) (g : Nat) : List Str × Nat :=
  match dir with
  | .R =>
    let s := ps.getD g []
    let ch := endChar .L s
    if g = 0 then
      let r := regionDeleteTowards .R (ch :: ps) 1
      (r.1, r.2.1)
    else
      let r := regionDeleteTowards .R (ps.set (g - 1) (insTextAtDirEnd (ps.getD (g - 1) []) ch .R)) g
      (r.1, r.2.1)
  | .L =>
    let s := ps.getD (g - 1) []
    let ch := endChar .R s
    if g = ps.length then
      let r := regionDeleteTowards .L (ps ++ [ch]) g
      (r.1, r.2.1)
    else
      let r := regionDeleteTowards .L (ps.set g (insTextAtDirEnd (ps.getD g []) ch .L)) g
      (r.1, r.2.1)

/-- Validity of a cursor gap for an operation whose target is cursor[dir]:
the dir neighbor must exist. -/
def validTarget (dir : Dir) (ps : List Str) (g : Nat) : Prop :=
  match dir with
  | .R => g < ps.length
  | .L => 0 < g ∧ g ≤ ps.length

/-- All pieces of a region are nonempty (the textStr-never-empty invariant). -/
def allNonempty (ps : List Str) : Prop := ∀ s ∈ ps, s ≠ []

section ListHelpers

variable {α : Type _}

theorem listEraseIdx_decomp (l : List α) (i : Nat) (h : i < l.length) :
    l.eraseIdx i = l.take i ++ l.drop (i + 1) := by
  induction l generalizing i with
  | nil => simp at h
  | cons a l ih =>
    cases i with
    | zero => simp [List.eraseIdx]
    | succ n =>
      simp only [List.eraseIdx, List.take, List.drop, List.cons_append]
      rw [ih n (by simpa using h)]

theorem listInsertIdx_decomp (l : List α) (i : Nat) (x : α) (h : i ≤ l.length) :
    l.insertIdx i x = l.take i ++ x :: l.drop i := by
  induction l generalizing i with
  | nil =>
    have hi : i = 0 := Nat.le_zero.mp (by simpa using h)
    subst hi
    simp
  | cons a l ih =>
    cases i with
    | zero => simp
    | succ n =>
      rw [List.insertIdx_succ_cons]
      simp only [List.take, List.drop, List.cons_append]
      rw [ih n (by simpa using h)]

theorem listTake_succ_getD (l : List α) (i : Nat) (d : α) (h : i < l.length) :
    l.take (i + 1) = l.take i ++ [l.getD i d] := by
  rw [List.take_succ, List.getD_eq_getElem?_getD]
  rw [List.getElem?_eq_getElem h]
  rfl

theorem listGetD_mem (l : List α) (i : Nat) (d : α) (h : i < l.length) :
    l.getD i d ∈ l := by
  rw [List.getD_eq_getElem?_getD, List.getElem?_eq_getElem h]
  exact List.getElem_mem h

end ListHelpers

/-- TextPiece.selectTowards(dir, cursor), lifted to the region.  The target
piece is the cursor's dir neighbor (this = cursor[dir]); a is the gap index
of the anticursor inside the same region.  When the anticursor's dir
neighbor is this piece, a fresh one-character piece is created between the
anticursor and the cursor, the anticursor's dir pointer is repointed to it
and the cursor moves to its dir side; otherwise the boundary character is
absorbed into the already-selected neighbor piece (created when absent), and
when this piece is down to its last character and is the anticursor's
opposite-side neighbor, the anticursor is repointed past it (it is about to
be removed).  selectTowards concludes by running deleteTowards on this.
In the gap-index model the repointing coincides with the index shift caused
by the removal.  Returns (pieces, cursor gap, anticursor gap). -/
def regionSelectTowards (dir : Dir) (ps : List Str) (g a : Nat) : List Str × Nat × Nat :=
  match dir with
  | .R =>
    let s := ps.getD g []
    let ch := endChar .L s
    if a = g then
      let r := regionDeleteTowards .R (ps.insertIdx g ch) (g + 1)
      (r.1, r.2.1, a)
    else
      let step :=
        if g = 0 then (ps.insertIdx 0 ch, 1, a + 1)
        else (ps.set (g - 1) (insTextAtDirEnd (ps.getD (g - 1) []) ch .R), g, a)
      let r := regionDeleteTowards .R step.1 step.2.1
      let a2 := if 1 < s.length then step.2.2
        else if step.2.1 < step.2.2 then step.2.2 - 1 else step.2.2
      (r.1, r.2.1, a2)
  | .L =>
    let s := ps.getD (g - 1) []
    let ch := endChar .R s
    if a = g then
      let r := regionDeleteTowards .L (ps.insertIdx g ch) g
      let a2 := if 1 < s.length then g + 1 else g
      (r.1, r.2.1, a2)
    else
      let step :=
        if g = ps.length then (ps ++ [ch], a)
        else (ps.set g (insTextAtDirEnd (ps.getD g []) ch .L), a)
      let r := regionDeleteTowards .L step.1 g
      let a2 := if 1 < s.length then step.2
        else if g - 1 < step.2 then step.2 - 1 else step.2
      (r.1, r.2.1, a2)

/-- The latex of the VanillaSymbol created for a literal dollar sign. -/
def dollarLatex : Str := ['\\', '$']

/-- Character offset of a gap index within a region: the number of
characters lying strictly left of the gap. -/
def gapOffset (ps : List Str) (g : Nat) : Nat := ((ps.take g).flatten).length

/-- Rendered DOM node inside a text block's span: a DOM text node carrying
character data, or any other (element) node. -/
inductive RNode where
  | text (s : Str) : RNode
  | elem : RNode
deriving DecidableEq, Repr

/-- DOM Node.normalize() restricted to a child list: adjacent text nodes are
merged and empty text nodes are removed. -/
def normalizeDOM : List RNode → List RNode
  | [] => []
  | .elem :: rest => .elem :: normalizeDOM rest
  | .text s :: rest =>
    match normalizeDOM rest with
    | .text t :: r => if s ++ t = [] then r else .text (s ++ t) :: r
    | r => if s = [] then r else .text s :: r

/-- TextBlockFuseChildren, DOM side: normalize the span's rendered children;
if nothing remains, return nothing (undefined); otherwise the single
remaining child must be a DOM text node (the oneText lookup and the pray
assertion abort fatally otherwise, modelled as error), and its character
data becomes the textStr of the one canonical TextPiece. -/
def TextBlockFuseChildren (rendered : List RNode) : Except Unit (Option Str) :=
  match normalizeDOM rendered with
  | [] => .ok none
  | [.text s] => .ok (some s)
  | _ => .error ()

/-- Effect of TextBlockFuseChildren on the region's children: on success
with a canonical piece, all prior TextPiece children are disowned and the
canonical piece is adopted as the sole child; when the fuse returned
nothing, the children are untouched. -/
def fuseRegionPieces (ps : List Str) (rendered : List RNode) : Except Unit (List Str) :=
  match TextBlockFuseChildren rendered with
  | .ok none => .ok ps
  | .ok (some s) => .ok [s]
  | .error e => .error e

/-- Node in the child list of an outer (root) block, as far as this
subsystem is concerned: a text region (TextBlock) with its pieces, or a
plain symbol with its latex. -/
inductive ONode where
  | region (ps : List Str) : ONode
  | sym (s : Str) : ONode
deriving DecidableEq, Repr

/-- Cursor position after TextBlock.write: still inside the region at a gap,
or outside in the outer block at an outer gap. -/
inductive TBCursor where
  | inRegion (g : Nat) : TBCursor
  | outer (c : Nat) : TBCursor
deriving DecidableEq, Repr

/-- TextBlock.write(cursor, ch) for a region at outer index k with the
cursor inside it at gap g (after the initial deleteSelection; no selection
is modelled).  Branches of the source, in order:
not the mode-switch character: create a one-character piece left of the
cursor when it has no left neighbor, else append to the left neighbor
piece; dollar in an empty region: move the cursor just right of the region
and create a literal escaped-dollar VanillaSymbol there; dollar with no
right neighbor: exit right; with no left neighbor: exit left; otherwise
split: the end-L child (the leftmost piece) is disowned into a freshly
created predecessor TextBlock placed left of the cursor, which sits left of
the original region. -/
def textBlockWriteFull (outer : List ONode) (k g : Nat) (ch : Char) : List ONode × TBCursor :=
  match outer.getD k (.sym []) with
  | .region ps =>
    if ch ≠ '$' then
      let ps1 := if g = 0 then [ch] :: ps
        else ps.set (g - 1) (appendText (ps.getD (g - 1) []) [ch])
      (outer.set k (.region ps1), .inRegion (if g = 0 then 1 else g))
    else if ps = [] then
      (outer.insertIdx (k + 1) (.sym dollarLatex), .outer (k + 2))
    else if g = ps.length then (outer, .outer (k + 1))
    else if g = 0 then (outer, .outer k)
    else
      ((outer.set k (.region (ps.drop 1))).insertIdx k (.region (ps.take 1)), .outer (k + 1))
  | .sym _ => (outer, .inRegion g)

/-- TextBlock.blur(cursor) for the region at outer index k, with the cursor
at outer gap c: an empty region (empty text contents) is removed from the
tree, any cursor endpoint that pointed at it being re-linked to the
region's former sibling (in the gap model, the index shift of removal);
otherwise the children are fused.  The fuse runs on the mirrored DOM
children, which under the mirror invariant are exactly the pieces' strings
as text nodes. -/
def textBlockBlur (outer : List ONode) (k c : Nat) : List ONode × Nat :=
  match outer.getD k (.sym []) with
  | .region ps =>
    if ps.flatten = [] then (outer.eraseIdx k, if k < c then c - 1 else c)
    else
      match fuseRegionPieces ps (ps.map RNode.text) with
      | .ok ps1 => (outer.set k (.region ps1), c)
      | .error _ => (outer.set k (.region ps), c)
  | .sym _ => (outer, c)

/-- Whitespace accepted by Parser.optWhitespace in front of the braced
literal. -/
def isSpaceChar (c : Char) : Bool :=
  c = ' ' || c = '\t' || c = '\n' || c = '\r'

/-- TextBlock.parser: optional whitespace, an opening brace, the maximal run
of characters other than a closing brace, then a closing brace.  An empty
literal yields an empty fragment (no TextPiece); a nonempty literal yields
one TextPiece holding it verbatim.  Returns the region's children and the
unconsumed input, or none when the input does not match. -/
def parseTextBlock (input : Str) : Option (List Str × Str) :=
  match input.dropWhile isSpaceChar with
  | [] => none
  | c :: rest1 =>
    if c = '\x7b' then
      let body := rest1.takeWhile (fun d => d ≠ '\x7d')
      match rest1.dropWhile (fun d => d ≠ '\x7d') with
      | [] => none
      | d :: rest3 =>
        if d = '\x7d' then some (if body = [] then [] else [body], rest3)
        else none
    else none

/-- Replacement string for a backslash in rendered latex: backslash,
the word backslash, then a space. -/
def backslashEscape : Str := "\\backslash ".toList

/-- First replace pass of TextBlock.latex: every backslash becomes the
backslash control word followed by a space. -/
def escapeBackslashes : Str → Str
  | [] => []
  | c :: rest =>
    (if c = '\\' then backslashEscape else [c]) ++ escapeBackslashes rest

/-- Second replace pass of TextBlock.latex: every brace is prefixed with a
backslash. -/
def escapeBraceChars : Str → Str
  | [] => []
  | c :: rest =>
    (if c = '\x7b' || c = '\x7d' then ['\\', c] else [c]) ++ escapeBraceChars rest

/-- The default control sequence of a TextBlock. -/
def ctrlSeqText : Str := "\\text".toList

/-- TextBlock.latex: empty contents render as the empty string; otherwise
the contents, with backslashes then braces escaped, are wrapped in the
control sequence and braces. -/
def textBlockLatex (ctrlSeq : Str) (ps : List Str) : Str :=
  let contents := ps.flatten
  if contents = [] then []
  else ctrlSeq ++ '\x7b' :: (escapeBraceChars (escapeBackslashes contents) ++ ['\x7d'])

/-- JavaScript strict comparison a < b on number-or-undefined values: false
whenever either side is undefined. -/
def jsLtOpt (a b : Option Nat) : Bool :=
  match a, b with
  | some j, some k => j < k
  | _, _ => false

/-- JavaScript a - b on number-or-undefined values, as consumed by
String.slice and Text.splitText: subtraction with an undefined side gives
NaN, which both slice and splitText coerce to index 0. -/
def jsSubIdx (a b : Option Nat) : Nat :=
  match a, b with
  | some j, some k => j - k
  | _, _ => 0

/-- The value cursor[L] && cursor[L].textStr.length of the seek code: the
left neighbor piece's length when the cursor has a left neighbor, undefined
otherwise. -/
def cursorLLen (ps : List Str) (g : Nat) : Option Nat :=
  if g = 0 then none else some ((ps.getD (g - 1) []).length)

/-- Result of the anticursor reconciliation step of TextBlock.seek:
the region's pieces, the cursor gap, the anticursorPosition cache, and the
gap index of the anticursor when one was (re)created. -/
structure SeekReconcileResult where
  pieces : List Str
  cursorGap : Nat
  cached : Option Nat
  antic : Option Nat
deriving DecidableEq, Repr

/-- Anticursor reconciliation at the end of TextBlock.seek (source lines
235 to 261).  With no anticursor yet, the cache records cursor[L] &&
cursor[L].textStr.length.  With an anticursor whose parent is this region:
when the cache strictly equals the current value the anticursor is re-made
from the cursor; when the cache is a number strictly below the current
number, the cursor's left neighbor is split at the cached value and the
anticursor is placed around the new piece, which also becomes cursor[L];
otherwise the cursor's right neighbor (crash when absent) is split at cache
minus current (NaN, hence index 0, when either side is undefined) and the
anticursor is placed around the new piece. -/
def seekReconcile (ps : List Str) (g : Nat) (cached : Option Nat)
    (hasAnticursor anticParentIsThis : Bool) : Except Unit SeekReconcileResult :=
  if !hasAnticursor then
    .ok ⟨ps, g, cursorLLen ps g, none⟩
  else if anticParentIsThis then
    let cursorPosition := cursorLLen ps g
    if cached = cursorPosition then
      .ok ⟨ps, g, cached, some g⟩
    else if jsLtOpt cached cursorPosition then
      let s := ps.getD (g - 1) []
      let pair := splitRight s (cached.getD 0)
      .ok ⟨ps.take (g - 1) ++ pair.1 :: pair.2 :: ps.drop g, g + 1, cached, some g⟩
    else
      if g < ps.length then
        let pair := splitRight (ps.getD g []) (jsSubIdx cached cursorPosition)
        .ok ⟨ps.take g ++ pair.1 :: pair.2 :: ps.drop (g + 1), g, cached, some (g + 1)⟩
      else .error ()
  else .ok ⟨ps, g, cached, none⟩

/-- Node in the child list of the outer plain-text root block: a
RootMathCommand with the children of its inner math block, or a plain
symbol. -/
inductive TNode where
  | mathCmd (inner : List Char) : TNode
  | sym (s : Str) : TNode
deriving DecidableEq, Repr

/-- Outcome of the overridden write of RootMathCommand's inner block. -/
inductive RMCOutcome where
  | delegated : RMCOutcome
  | collapsed (outer : List TNode) (c : Nat) : RMCOutcome
  | exitRight : RMCOutcome
  | exitLeft : RMCOutcome
deriving DecidableEq, Repr

/-- Overridden write of RootMathCommand's inner block (source lines 493 to
502), for the command at index k of the outer text block, with the inner
cursor at gap g of the inner children.  A non-dollar character goes to the
ordinary MathBlock write; a dollar in an empty inner block moves the cursor
right of the command, deletes the command and creates a literal
escaped-dollar symbol left of the cursor; a dollar with no right (left)
neighbor exits right (left) of the command; an interior dollar goes to the
ordinary MathBlock write.  Modelled from the spec: the command removal in
the empty case runs through this.parent.deleteTowards, whose MathCommand
implementation is outside this file; per the spec it deletes the whole math
command, so the net outer effect is the command node replaced by the
escaped-dollar symbol with the cursor to its right. -/
def rootMathCmdWrite (outer : List TNode) (k : Nat) (inner : List Char) (g : Nat)
    (ch : Char) : RMCOutcome :=
  if ch ≠ '$' then .delegated
  else if inner = [] then .collapsed (outer.set k (.sym dollarLatex)) (k + 1)
  else if g = inner.length then .exitRight
  else if g = 0 then .exitLeft
  else .delegated

section ListHelpers2

variable {α : Type _}

theorem listSet_append_exact (E l : List α) (j : Nat) (v : α) :
    (E ++ l).set (E.length + j) v = E ++ l.set j v := by
  induction E with
  | nil => simp
  | cons a E ih =>
    simp only [List.cons_append, List.length_cons]
    rw [Nat.succ_add, List.set_cons_succ]
    rw [ih]

theorem listGetD_append_exact (E l : List α) (j : Nat) (d : α) :
    (E ++ l).getD (E.length + j) d = l.getD j d := by
  rw [List.getD_eq_getElem?_getD, List.getElem?_append_right (by omega)]
  rw [Nat.add_sub_cancel_left, ← List.getD_eq_getElem?_getD]

theorem listEraseIdx_append_exact (E l : List α) (j : Nat) :
    (E ++ l).eraseIdx (E.length + j) = E ++ l.eraseIdx j := by
  induction E with
  | nil => simp
  | cons a E ih =>
    simp only [List.cons_append, List.length_cons]
    rw [Nat.succ_add, List.eraseIdx_cons_succ]
    rw [ih]

theorem listInsertIdx_append_exact (E l : List α) (j : Nat) (x : α) :
    (E ++ l).insertIdx (E.length + j) x = E ++ l.insertIdx j x := by
  induction E with
  | nil => simp
  | cons a E ih =>
    simp only [List.cons_append, List.length_cons]
    rw [Nat.succ_add, List.insertIdx_succ_cons]
    rw [ih]

theorem listTake_append_exact (E l : List α) (j : Nat) :
    (E ++ l).take (E.length + j) = E ++ l.take j := by
  induction E with
  | nil => simp
  | cons a E ih =>
    simp only [List.cons_append, List.length_cons]
    rw [Nat.succ_add, List.take_succ_cons]
    rw [ih]

theorem listDrop_append_exact (E l : List α) (j : Nat) :
    (E ++ l).drop (E.length + j) = l.drop j := by
  induction E with
  | nil => simp
  | cons a E ih =>
    simp only [List.cons_append, List.length_cons]
    rw [Nat.succ_add, List.drop_succ_cons]
    rw [ih]

theorem listDecompose (l : List α) (i : Nat) (d : α) (h : i < l.length) :
    ∃ E T, l = E ++ l.getD i d :: T ∧ E.length = i ∧ T = l.drop (i + 1) := by
  refine ⟨l.take i, l.drop (i + 1), ?_, by simp [List.length_take]; omega, rfl⟩
  conv_lhs => rw [← List.take_append_drop i l]
  rw [List.drop_eq_getElem_cons h, List.getD_eq_getElem?_getD, List.getElem?_eq_getElem h]
  rfl

theorem listDecomposeTwo (l : List α) (n : Nat) (d : α) (h : n + 1 < l.length) :
    ∃ E T, l = E ++ l.getD n d :: l.getD (n + 1) d :: T ∧ E.length = n ∧
      T = l.drop (n + 2) := by
  refine ⟨l.take n, l.drop (n + 2), ?_, by simp [List.length_take]; omega, rfl⟩
  conv_lhs => rw [← List.take_append_drop n l]
  rw [List.drop_eq_getElem_cons (show n < l.length by omega),
    List.drop_eq_getElem_cons (show n + 1 < l.length from h)]
  rw [List.getD_eq_getElem?_getD, List.getElem?_eq_getElem (show n < l.length by omega),
    List.getD_eq_getElem?_getD, List.getElem?_eq_getElem h]
  rfl

end ListHelpers2

/-- C1 (code bug): during a drag that started at the region's left end, the
anticursorPosition cache holds the JavaScript value undefined (the source
comment reads it as offset 0).  On the next seek, with the region holding
pieces a and b and the cursor at character offset 1, the reconciliation is
claimed to repoint the anticursor to its cached offset 0; instead the
undefined cache falls into the opposite branch, cache minus current is NaN,
the right neighbor is split at index 0 (creating an empty piece), and the
anticursor lands at character offset 1, not 0.  And when the cursor ends at
the region's right end in the same situation, cursor[R] is undefined and
the split call crashes. -/
theorem seekReconcile_left_end_bug :
    seekReconcile [['a'], ['b']] 1 none true true =
      .ok ⟨[['a'], [], ['b']], 1, none, some 2⟩ ∧
    gapOffset [['a'], [], ['b']] 2 = 1 ∧
    gapOffset [['a'], ['b']] 0 = 0 ∧
    seekReconcile [['a']] 1 none true true = .error () := by
  exact ⟨rfl, rfl, rfl, rfl⟩

/-- C2 counterexample: a region holding the runs he, ll, o with the cursor
between ll and o (both neighbors exist; character offset 4).  The interior
dollar write detaches only the leftmost run he into the predecessor region,
while the content left of the cursor is hell: the claim that all content
left of the cursor is detached fails. -/
theorem textBlockWrite_dollar_split_cex :
    textBlockWriteFull [ONode.region [['h','e'], ['l','l'], ['o']]] 0 2 '$' =
      ([ONode.region [['h','e']], ONode.region [['l','l'], ['o']]], .outer 1) ∧
    (([['h','e'], ['l','l'], ['o']] : List Str).take 2).flatten = ['h','e','l','l'] ∧
    (([['h','e'], ['l','l'], ['o']] : List Str).take 1).flatten ≠ ['h','e','l','l'] := by
  refine ⟨rfl, rfl, by decide⟩

/-- C2 as amended: for every cursor gap with both a left and a right
neighbor, the interior dollar write detaches the region's leftmost run
(and only it) into a freshly created predecessor region placed immediately
left, leaves the rest in the original region, and puts the cursor between
the two regions; the two regions partition the original content; and under
the textStr-never-empty invariant the detached run is all of the content
left of the cursor exactly when the cursor's left neighbor is the region's
leftmost run (gap 1, the normalized state). -/
theorem textBlockWrite_dollar_split_amended (outer : List ONode) (k : Nat) (ps : List Str)
    (g : Nat) (h : outer.getD k (.sym []) = .region ps) (hg0 : 0 < g)
    (hglen : g < ps.length) :
    textBlockWriteFull outer k g '$' =
      ((outer.set k (.region (ps.drop 1))).insertIdx k (.region (ps.take 1)), .outer (k + 1)) ∧
    (ps.take 1).flatten ++ (ps.drop 1).flatten = ps.flatten ∧
    (allNonempty ps → ((ps.take 1).flatten = (ps.take g).flatten ↔ g = 1)) := by
  refine ⟨?_, ?_, ?_⟩
  · have h0 : ps ≠ [] := List.ne_nil_of_length_pos (by omega)
    have h1 : g ≠ ps.length := by omega
    have h2 : g ≠ 0 := by omega
    have h3 : outer[k]?.getD (ONode.sym []) = ONode.region ps := by
      rw [← List.getD_eq_getElem?_getD]
      exact h
    simp [textBlockWriteFull, h3, h0, h1, h2, List.drop_one]
  · rw [← List.flatten_append, List.take_append_drop]
  · intro hne
    constructor
    · intro heq
      by_contra hg1
      have hg2 : 2 ≤ g := by omega
      have hlen1 : 1 < ps.length := by omega
      have hp1 : ps.getD 1 [] ≠ [] := hne _ (listGetD_mem _ _ _ hlen1)
      have hdecomp : ps.take g = ps.take 2 ++ (ps.drop 2).take (g - 2) := by
        rw [← List.take_add]
        congr 1
        omega
      have ht2 : ps.take 2 = ps.take 1 ++ [ps.getD 1 []] := listTake_succ_getD ps 1 [] hlen1
      have hlt : ((ps.take 1).flatten).length < ((ps.take g).flatten).length := by
        rw [hdecomp, List.flatten_append, ht2, List.flatten_append]
        simp only [List.length_append, List.flatten_cons, List.flatten_nil, List.append_nil]
        have : 0 < (ps.getD 1 []).length := List.length_pos.mpr hp1
        omega
      rw [heq] at hlt
      omega
    · intro hg1
      rw [hg1]

/-- C2 witness: region with runs h, i and j, cursor between i and j (gap 2,
two runs left of the cursor): only the leftmost run h is detached, the
partition holds, and equality with the content left of the cursor fails. -/
theorem textBlockWrite_dollar_split_amended_inst :
    textBlockWriteFull [ONode.region [['h'], ['i'], ['j']]] 0 2 '$' =
      (([ONode.region [['h'], ['i'], ['j']]].set 0
          (.region (([['h'], ['i'], ['j']] : List Str).drop 1))).insertIdx 0
        (.region (([['h'], ['i'], ['j']] : List Str).take 1)), .outer 1) ∧
    (([['h'], ['i'], ['j']] : List Str).take 1).flatten ++
        (([['h'], ['i'], ['j']] : List Str).drop 1).flatten
      = ([['h'], ['i'], ['j']] : List Str).flatten ∧
    (allNonempty [['h'], ['i'], ['j']] →
      ((([['h'], ['i'], ['j']] : List Str).take 1).flatten =
        (([['h'], ['i'], ['j']] : List Str).take 2).flatten ↔ 2 = 1)) := by
  exact textBlockWrite_dollar_split_amended [ONode.region [['h'], ['i'], ['j']]] 0
    [['h'], ['i'], ['j']] 2 rfl (by decide) (by decide)

/-- C3: a non-dollar write creates a fresh one-character piece left of the
cursor when the cursor has no left neighbor, otherwise appends the
character to the left neighbor piece; either way the region's concatenated
content gains exactly that character at the cursor's character offset. -/
theorem textBlockWrite_char_insert (outer : List ONode) (k : Nat) (ps : List Str)
    (g : Nat) (ch : Char) (h : outer.getD k (.sym []) = .region ps) (hch : ch ≠ '$')
    (hg : g ≤ ps.length) :
    ∃ ps1,
      textBlockWriteFull outer k g ch =
        (outer.set k (.region ps1), .inRegion (if g = 0 then 1 else g)) ∧
      (g = 0 → ps1 = [ch] :: ps) ∧
      (0 < g → ps1 = ps.set (g - 1) (appendText (ps.getD (g - 1) []) [ch])) ∧
      ps1.flatten = (ps.take g).flatten ++ ch :: (ps.drop g).flatten := by
  have h2 : outer[k]?.getD (ONode.sym []) = ONode.region ps := by
    rw [← List.getD_eq_getElem?_getD]
    exact h
  refine ⟨if g = 0 then [ch] :: ps else ps.set (g - 1) (appendText (ps.getD (g - 1) []) [ch]),
    ?_, ?_, ?_, ?_⟩
  · unfold textBlockWriteFull
    rw [h]
    dsimp only
    rw [if_pos hch]
  · intro h0
    simp [h0]
  · intro h0
    rw [if_neg (by omega)]
  · cases g with
    | zero => simp
    | succ n =>
      rw [if_neg (by omega)]
      simp only [Nat.add_sub_cancel]
      have hn : n < ps.length := by omega
      obtain ⟨E, T, hps, hE, hT⟩ := listDecompose ps n [] hn
      set x := ps.getD n [] with hxdef
      rw [hps]
      have hset := listSet_append_exact E (x :: T) 0 (appendText x [ch])
      rw [Nat.add_zero, hE] at hset
      rw [hset]
      have htk := listTake_append_exact E (x :: T) 1
      rw [hE] at htk
      rw [htk]
      have hdr := listDrop_append_exact E (x :: T) 1
      rw [hE] at hdr
      rw [hdr]
      simp [appendText]

/-- C3 witness: writing x with the cursor right of the single run a. -/
theorem textBlockWrite_char_insert_inst :
    ∃ ps1,
      textBlockWriteFull [ONode.region [['a']]] 0 1 'x' =
        ([ONode.region [['a']]].set 0 (.region ps1), .inRegion (if (1 : Nat) = 0 then 1 else 1)) ∧
      ((1 : Nat) = 0 → ps1 = [['x'], ['a']]) ∧
      ((0 : Nat) < 1 → ps1 = ([['a']] : List Str).set 0 (appendText (([['a']] : List Str).getD 0 []) ['x'])) ∧
      ps1.flatten = (([['a']] : List Str).take 1).flatten ++ 'x' :: (([['a']] : List Str).drop 1).flatten := by
  exact textBlockWrite_char_insert [ONode.region [['a']]] 0 [['a']] 1 'x' rfl
    (by decide) (by decide)

theorem escapeBackslashes_append (t u : Str) :
    escapeBackslashes (t ++ u) = escapeBackslashes t ++ escapeBackslashes u := by
  induction t with
  | nil => simp [escapeBackslashes]
  | cons c t ih => simp [escapeBackslashes, ih, List.append_assoc]

theorem escapeBraceChars_append (t u : Str) :
    escapeBraceChars (t ++ u) = escapeBraceChars t ++ escapeBraceChars u := by
  induction t with
  | nil => simp [escapeBraceChars]
  | cons c t ih => simp [escapeBraceChars, ih, List.append_assoc]

theorem escape_plain (s : Str) (h : ∀ c ∈ s, c ≠ '\x7b' ∧ c ≠ '\x7d' ∧ c ≠ '\\') :
    escapeBraceChars (escapeBackslashes s) = s := by
  induction s with
  | nil => simp [escapeBackslashes, escapeBraceChars]
  | cons c t ih =>
    have hc := h c (by simp)
    have ht : ∀ c ∈ t, c ≠ '\x7b' ∧ c ≠ '\x7d' ∧ c ≠ '\\' := fun d hd => h d (by simp [hd])
    simp only [escapeBackslashes, if_neg hc.2.2]
    rw [escapeBraceChars_append]
    simp only [escapeBraceChars]
    rw [if_neg (by simp [hc.1, hc.2.1])]
    simp [ih ht]

theorem listTakeDropWhile_exact {α : Type _} (p : α → Bool) (s : List α) (x : α)
    (rest : List α) (hs : ∀ c ∈ s, p c = true) (hx : p x = false) :
    (s ++ x :: rest).takeWhile p = s ∧ (s ++ x :: rest).dropWhile p = x :: rest := by
  induction s with
  | nil => simp [List.takeWhile_cons, List.dropWhile_cons, hx]
  | cons a s ih =>
    have ha : p a = true := hs a (by simp)
    have hs1 : ∀ c ∈ s, p c = true := fun d hd => hs d (by simp [hd])
    obtain ⟨ih1, ih2⟩ := ih hs1
    constructor
    · simp [List.takeWhile_cons, ha, ih1]
    · simp [List.dropWhile_cons, ha, ih2]

/-- C4 counterexample: parsing an empty braced literal gives an empty
region, which renders as the empty string, not as the control sequence
wrapping the empty content: the round trip stated for every brace-free and
backslash-free string fails at the empty string. -/
theorem latex_parse_empty_cex :
    parseTextBlock ['\x7b', '\x7d'] = some ([], []) ∧
    textBlockLatex ctrlSeqText [] = [] ∧
    textBlockLatex ctrlSeqText [] ≠ ctrlSeqText ++ ['\x7b', '\x7d'] := by
  exact ⟨rfl, rfl, by decide⟩

/-- C4 as amended: for every nonempty string without braces or backslashes,
parsing the braced literal yields one piece holding it verbatim and the
rendered latex is the string wrapped in the control sequence and braces;
the escaping replaces a backslash with the backslash control word plus a
space and prefixes braces with a backslash, character by character; a
region with empty contents renders as the empty string. -/
theorem latex_parse_roundtrip_amended :
    (∀ s : Str, s ≠ [] → (∀ c ∈ s, c ≠ '\x7b' ∧ c ≠ '\x7d' ∧ c ≠ '\\') →
      parseTextBlock ('\x7b' :: s ++ ['\x7d']) = some ([s], []) ∧
      textBlockLatex ctrlSeqText [s] = ctrlSeqText ++ '\x7b' :: s ++ ['\x7d']) ∧
    (∀ t u : Str, escapeBraceChars (escapeBackslashes (t ++ u)) =
      escapeBraceChars (escapeBackslashes t) ++ escapeBraceChars (escapeBackslashes u)) ∧
    escapeBraceChars (escapeBackslashes ['\\']) = backslashEscape ∧
    escapeBraceChars (escapeBackslashes ['\x7b']) = ['\\', '\x7b'] ∧
    escapeBraceChars (escapeBackslashes ['\x7d']) = ['\\', '\x7d'] ∧
    (∀ ps : List Str, ps.flatten = [] → textBlockLatex ctrlSeqText ps = []) := by
  refine ⟨?_, ?_, by decide, by decide, by decide, ?_⟩
  · intro s hne hplain
    constructor
    · have hclose : (fun d => decide (d ≠ '\x7d')) '\x7d' = false := by decide
      have hopen : ∀ c ∈ s, (fun d => decide (d ≠ '\x7d')) c = true := by
        intro c hc
        have := (hplain c hc).2.1
        simpa using this
      obtain ⟨ht, hd⟩ := listTakeDropWhile_exact _ s '\x7d' [] hopen hclose
      have hdw : List.dropWhile isSpaceChar ('\x7b' :: (s ++ ['\x7d'])) =
          '\x7b' :: (s ++ ['\x7d']) := by
        rw [List.dropWhile_cons]
        simp [isSpaceChar]
      unfold parseTextBlock
      rw [List.cons_append, hdw]
      dsimp only
      rw [if_pos rfl, ht, hd]
      dsimp only
      rw [if_pos rfl, if_neg hne]
    · simp only [textBlockLatex, List.flatten_cons, List.flatten_nil, List.append_nil]
      rw [if_neg hne, escape_plain s hplain]
      simp [List.append_assoc]
  · intro t u
    rw [escapeBackslashes_append, escapeBraceChars_append]
  · intro ps hps
    simp [textBlockLatex, hps]

/-- C4 witness: the round trip at the two-character string ab. -/
theorem latex_parse_roundtrip_amended_inst :
    parseTextBlock ('\x7b' :: ['a', 'b'] ++ ['\x7d']) = some ([['a', 'b']], []) ∧
    textBlockLatex ctrlSeqText [['a', 'b']] = ctrlSeqText ++ '\x7b' :: ['a', 'b'] ++ ['\x7d'] := by
  exact latex_parse_roundtrip_amended.1 ['a', 'b'] (by decide) (by decide)

theorem listGetElem?_some_lt {α : Type _} {l : List α} {g : Nat} {s : α}
    (h : l[g]? = some s) : g < l.length := by
  by_contra hc
  rw [List.getElem?_eq_none (by omega)] at h
  exact Option.noConfusion h

theorem listGetElem?_some_getD {α : Type _} {l : List α} {g : Nat} {s d : α}
    (h : l[g]? = some s) : l.getD g d = s := by
  rw [List.getD_eq_getElem?_getD, h]
  rfl

/-- C5: deleteTowards on the cursor's dir-neighbor piece holding s: with
more than one character, exactly one character is removed from the end
nearest the opposite of dir (deleting rightward removes the first
character, leftward the last) and that character is announced; with
exactly one character, the whole piece is removed, the cursor's dir
pointer is re-linked to the piece's former dir neighbor, and the character
is announced. -/
theorem textPiece_deleteTowards_spec (dir : Dir) (ps : List Str) (g : Nat) (s : Str)
    (h : cursorNbr dir ps g = some s) :
    (1 < s.length → regionDeleteTowards dir ps g =
        (match dir with
         | .R => (ps.set g (s.drop 1), g, s.take 1)
         | .L => (ps.set (g - 1) (s.take (s.length - 1)), g, s.drop (s.length - 1)))) ∧
    (s.length = 1 →
      regionDeleteTowards dir ps g =
        (match dir with
         | .R => (ps.eraseIdx g, g, s)
         | .L => (ps.eraseIdx (g - 1), g - 1, s)) ∧
      cursorNbr dir (regionDeleteTowards dir ps g).1 (regionDeleteTowards dir ps g).2.1 =
        cursorNbr dir ps (match dir with | .R => g + 1 | .L => g - 1)) := by
  cases dir with
  | R =>
    simp only [cursorNbr] at h
    have hgd : ps.getD g [] = s := listGetElem?_some_getD h
    constructor
    · intro h1
      simp only [regionDeleteTowards, hgd, if_pos h1]
    · intro h1
      have h2 : ¬ 1 < s.length := by omega
      refine ⟨by simp only [regionDeleteTowards, hgd, if_neg h2], ?_⟩
      simp only [regionDeleteTowards, hgd, if_neg h2, cursorNbr]
      rw [List.getElem?_eraseIdx]
      simp
  | L =>
    cases g with
    | zero => simp [cursorNbr] at h
    | succ m =>
      simp only [cursorNbr] at h
      have hgd : ps.getD m [] = s := listGetElem?_some_getD h
      constructor
      · intro h1
        simp only [regionDeleteTowards, Nat.add_sub_cancel, hgd, if_pos h1]
      · intro h1
        have h2 : ¬ 1 < s.length := by omega
        refine ⟨by simp only [regionDeleteTowards, Nat.add_sub_cancel, hgd, if_neg h2], ?_⟩
        simp only [regionDeleteTowards, Nat.add_sub_cancel, hgd, if_neg h2, cursorNbr]
        cases m with
        | zero => rfl
        | succ j =>
          show (ps.eraseIdx (j + 1))[j]? = ps[j]?
          rw [List.getElem?_eraseIdx]
          simp

/-- C5 witness: deleting rightward in the run ab removes its first
character a, and deleting the single-character run c removes the run and
re-links the cursor. -/
theorem textPiece_deleteTowards_spec_inst :
    regionDeleteTowards .R [['a', 'b']] 0 =
      ([['a', 'b']].set 0 ((['a', 'b'] : Str).drop 1), 0, (['a', 'b'] : Str).take 1) := by
  exact (textPiece_deleteTowards_spec .R [['a', 'b']] 0 ['a', 'b'] rfl).1 (by decide)


theorem listGetD_append_zero {α : Type _} (E l : List α) (d : α) :
    (E ++ l).getD E.length d = l.getD 0 d := by
  have := listGetD_append_exact E l 0 d
  rwa [Nat.add_zero] at this

theorem listGetD_append_one {α : Type _} (E l : List α) (d : α) :
    (E ++ l).getD (E.length + 1) d = l.getD 1 d :=
  listGetD_append_exact E l 1 d

theorem listSet_append_zero {α : Type _} (E l : List α) (v : α) :
    (E ++ l).set E.length v = E ++ l.set 0 v := by
  have := listSet_append_exact E l 0 v
  rwa [Nat.add_zero] at this

theorem listSet_append_one {α : Type _} (E l : List α) (v : α) :
    (E ++ l).set (E.length + 1) v = E ++ l.set 1 v :=
  listSet_append_exact E l 1 v

theorem listEraseIdx_append_one {α : Type _} (E l : List α) :
    (E ++ l).eraseIdx (E.length + 1) = E ++ l.eraseIdx 1 :=
  listEraseIdx_append_exact E l 1

theorem listEraseIdx_append_zero {α : Type _} (E l : List α) :
    (E ++ l).eraseIdx E.length = E ++ l.eraseIdx 0 := by
  have := listEraseIdx_append_exact E l 0
  rwa [Nat.add_zero] at this

theorem take_drop_mid {α : Type _} (s t : List α) (n : Nat) :
    s.take n ++ (s.drop n ++ t) = s ++ t := by
  rw [← List.append_assoc, List.take_append_drop]

theorem moveTowardsR_zero_flatten (x : Str) (T : List Str) :
    (regionMoveTowards .R (x :: T) 0).1.flatten = (x :: T).flatten := by
  by_cases h1 : 1 < x.length
  · simp [regionMoveTowards, regionDeleteTowards, endChar, h1]
    rw [← List.drop_one, take_drop_mid]
  · simp [regionMoveTowards, regionDeleteTowards, endChar, h1]
    omega

theorem moveTowardsR_mid_flatten (E : List Str) (x s : Str) (T : List Str) :
    (regionMoveTowards .R (E ++ x :: s :: T) (E.length + 1)).1.flatten =
      (E ++ x :: s :: T).flatten := by
  by_cases h1 : 1 < s.length
  · simp only [regionMoveTowards, regionDeleteTowards, endChar, insTextAtDirEnd, appendText,
      Nat.add_sub_cancel, Nat.add_one_ne_zero, if_false,
      listGetD_append_zero, listGetD_append_one, listSet_append_zero, listSet_append_one,
      List.getD_cons_zero, List.getD_cons_succ, List.set_cons_zero, List.set_cons_succ]
    rw [if_pos h1]
    simp only [List.flatten_append, List.flatten_cons, List.append_assoc, take_drop_mid]
  · simp only [regionMoveTowards, regionDeleteTowards, endChar, insTextAtDirEnd, appendText,
      Nat.add_sub_cancel, Nat.add_one_ne_zero, if_false,
      listGetD_append_zero, listGetD_append_one, listSet_append_zero, listSet_append_one,
      List.getD_cons_zero, List.getD_cons_succ, List.set_cons_zero, List.set_cons_succ]
    rw [if_neg h1, listEraseIdx_append_one]
    simp only [List.eraseIdx_cons_succ, List.eraseIdx_cons_zero]
    rw [List.take_of_length_le (by omega)]
    simp [List.flatten_append, List.flatten_cons, List.append_assoc]

theorem moveTowardsL_mid_flatten (E : List Str) (s y : Str) (T : List Str) :
    (regionMoveTowards .L (E ++ s :: y :: T) (E.length + 1)).1.flatten =
      (E ++ s :: y :: T).flatten := by
  have hlen : ¬ (E.length + 1 = (E ++ s :: y :: T).length) := by simp
  by_cases h1 : 1 < s.length
  · simp only [regionMoveTowards, regionDeleteTowards, endChar, insTextAtDirEnd, prependText,
      Nat.add_sub_cancel, hlen, if_false,
      listGetD_append_zero, listGetD_append_one, listSet_append_zero, listSet_append_one,
      List.getD_cons_zero, List.getD_cons_succ, List.set_cons_zero, List.set_cons_succ]
    rw [if_pos h1]
    simp only [List.flatten_append, List.flatten_cons, List.append_assoc, take_drop_mid]
  · simp only [regionMoveTowards, regionDeleteTowards, endChar, insTextAtDirEnd, prependText,
      Nat.add_sub_cancel, hlen, if_false,
      listGetD_append_zero, listGetD_append_one, listSet_append_zero, listSet_append_one,
      List.getD_cons_zero, List.getD_cons_succ, List.set_cons_zero, List.set_cons_succ]
    rw [if_neg h1, listEraseIdx_append_zero]
    simp only [List.eraseIdx_cons_zero]
    have h0 : s.length - 1 = 0 := by omega
    rw [h0, List.drop_zero]
    simp [List.flatten_append, List.flatten_cons, List.append_assoc]

theorem moveTowardsL_end_flatten (E : List Str) (s : Str) :
    (regionMoveTowards .L (E ++ [s]) (E.length + 1)).1.flatten = (E ++ [s]).flatten := by
  have hlen : E.length + 1 = (E ++ [s]).length := by simp
  have happ : (E ++ [s]) ++ [endChar .R s] = E ++ s :: [endChar .R s] := by
    simp [List.append_assoc]
  by_cases h1 : 1 < s.length
  · simp only [regionMoveTowards]
    rw [if_pos hlen]
    simp only [regionDeleteTowards, Nat.add_sub_cancel, happ,
      listGetD_append_zero, listGetD_append_one, listSet_append_zero, listSet_append_one,
      List.getD_cons_zero, List.getD_cons_succ, List.set_cons_zero, List.set_cons_succ]
    rw [if_pos h1]
    simp only [endChar, List.flatten_append, List.flatten_cons, List.append_assoc,
      take_drop_mid]
  · simp only [regionMoveTowards]
    rw [if_pos hlen]
    simp only [regionDeleteTowards, Nat.add_sub_cancel, happ,
      listGetD_append_zero, listGetD_append_one, listSet_append_zero, listSet_append_one,
      List.getD_cons_zero, List.getD_cons_succ, List.set_cons_zero, List.set_cons_succ]
    rw [if_neg h1, listEraseIdx_append_zero]
    simp only [List.eraseIdx_cons_zero, endChar]
    have h0 : s.length - 1 = 0 := by omega
    rw [h0, List.drop_zero]

/-- C10: stepping the cursor one character through a run with moveTowards
transfers the boundary character into the neighbor run in the movement
direction (creating it when absent) and deletes it from the source run, so
the region's concatenated text content is unchanged by every such step. -/
theorem moveTowards_preserves_content (dir : Dir) (ps : List Str) (g : Nat)
    (h : validTarget dir ps g) :
    (regionMoveTowards dir ps g).1.flatten = ps.flatten := by
  cases dir with
  | R =>
    have hg : g < ps.length := h
    cases g with
    | zero =>
      cases ps with
      | nil => simp at hg
      | cons x T => exact moveTowardsR_zero_flatten x T
    | succ n =>
      obtain ⟨E, T, hps, hE, hT⟩ := listDecomposeTwo ps n [] hg
      set x := ps.getD n [] with hxdef
      set s := ps.getD (n + 1) [] with hsdef
      rw [hps, show n + 1 = E.length + 1 from by omega]
      exact moveTowardsR_mid_flatten E x s T
  | L =>
    obtain ⟨hg0, hgle⟩ := h
    by_cases hend : g = ps.length
    · have hn : g - 1 < ps.length := by omega
      obtain ⟨E, T, hps, hE, hT⟩ := listDecompose ps (g - 1) [] hn
      have hTnil : T = [] := by
        rw [hT, List.drop_eq_nil_iff]
        omega
      subst hTnil
      set s := ps.getD (g - 1) [] with hsdef
      rw [hps, show g = E.length + 1 from by omega]
      exact moveTowardsL_end_flatten E s
    · have hn : g - 1 + 1 < ps.length := by omega
      obtain ⟨E, T, hps, hE, hT⟩ := listDecomposeTwo ps (g - 1) [] hn
      rw [show g - 1 + 1 = g from by omega] at hps
      set s := ps.getD (g - 1) [] with hsdef
      set y := ps.getD g [] with hydef
      rw [hps, show g = E.length + 1 from by omega]
      exact moveTowardsL_mid_flatten E s y T

/-- C10 witness: one step right through the run ab from the region's left
end keeps the content ab. -/
theorem moveTowards_preserves_content_inst :
    (regionMoveTowards .R [['a', 'b']] 0).1.flatten = ([['a', 'b']] : List Str).flatten := by
  exact moveTowards_preserves_content .R [['a', 'b']] 0 (by simp [validTarget])

theorem allNonempty_set (ps : List Str) (i : Nat) (x : Str) (h : allNonempty ps)
    (hx : x ≠ []) : allNonempty (ps.set i x) :=
  fun s hs => (List.mem_or_eq_of_mem_set hs).elim (h s) (fun e => e ▸ hx)

theorem allNonempty_eraseIdx (ps : List Str) (i : Nat) (h : allNonempty ps) :
    allNonempty (ps.eraseIdx i) :=
  fun s hs => h s (List.Sublist.mem hs (List.eraseIdx_sublist ps i))

theorem allNonempty_insertIdx (ps : List Str) (i : Nat) (x : Str) (hi : i ≤ ps.length)
    (hx : x ≠ []) (h : allNonempty ps) : allNonempty (ps.insertIdx i x) :=
  fun s hs => ((List.mem_insertIdx hi).mp hs).elim (fun e => e ▸ hx) (h s)

theorem allNonempty_cons (x : Str) (ps : List Str) (hx : x ≠ []) (h : allNonempty ps) :
    allNonempty (x :: ps) := by
  intro s hs
  rcases List.mem_cons.mp hs with e | hm
  · exact e ▸ hx
  · exact h s hm

theorem allNonempty_append_singleton (ps : List Str) (x : Str) (h : allNonempty ps)
    (hx : x ≠ []) : allNonempty (ps ++ [x]) := by
  intro s hs
  rcases List.mem_append.mp hs with hm | hm
  · exact h s hm
  · rcases List.mem_singleton.mp hm with e
    exact e ▸ hx

theorem nonempty_regionDeleteTowards (dir : Dir) (ps : List Str) (g : Nat)
    (h : allNonempty ps) : allNonempty (regionDeleteTowards dir ps g).1 := by
  cases dir with
  | R =>
    simp only [regionDeleteTowards]
    by_cases hc : 1 < (ps.getD g []).length
    · rw [if_pos hc]
      apply allNonempty_set _ _ _ h
      intro h0
      rw [List.drop_eq_nil_iff] at h0
      omega
    · rw [if_neg hc]
      exact allNonempty_eraseIdx _ _ h
  | L =>
    simp only [regionDeleteTowards]
    by_cases hc : 1 < (ps.getD (g - 1) []).length
    · rw [if_pos hc]
      apply allNonempty_set _ _ _ h
      intro h0
      rcases List.take_eq_nil_iff.mp h0 with h0 | h0
      · omega
      · rw [h0] at hc
        simp at hc
    · rw [if_neg hc]
      exact allNonempty_eraseIdx _ _ h

theorem take_one_ne_nil (s : Str) (hs : s ≠ []) : s.take 1 ≠ [] := by
  intro h0
  rcases List.take_eq_nil_iff.mp h0 with h0 | h0
  · omega
  · exact hs h0

theorem drop_last_ne_nil (s : Str) (hs : s ≠ []) : s.drop (s.length - 1) ≠ [] := by
  intro h0
  rw [List.drop_eq_nil_iff] at h0
  have : s.length = 0 := by omega
  exact hs (List.length_eq_zero.mp this)

theorem nonempty_regionMoveTowards (dir : Dir) (ps : List Str) (g : Nat)
    (h : allNonempty ps) (hv : validTarget dir ps g) :
    allNonempty (regionMoveTowards dir ps g).1 := by
  cases dir with
  | R =>
    have hg : g < ps.length := hv
    have hs : ps.getD g [] ≠ [] := h _ (listGetD_mem _ _ _ hg)
    have hch : (ps.getD g []).take 1 ≠ [] := take_one_ne_nil _ hs
    simp only [regionMoveTowards, endChar, insTextAtDirEnd, appendText]
    by_cases hg0 : g = 0
    · rw [if_pos hg0]
      exact nonempty_regionDeleteTowards _ _ _ (allNonempty_cons _ _ hch h)
    · rw [if_neg hg0]
      apply nonempty_regionDeleteTowards
      apply allNonempty_set _ _ _ h
      intro h0
      exact hch (List.append_eq_nil.mp h0).2
  | L =>
    obtain ⟨hg0, hgle⟩ := hv
    have hglt : g - 1 < ps.length := by omega
    have hs : ps.getD (g - 1) [] ≠ [] := h _ (listGetD_mem _ _ _ hglt)
    have hch : (ps.getD (g - 1) []).drop ((ps.getD (g - 1) []).length - 1) ≠ [] :=
      drop_last_ne_nil _ hs
    simp only [regionMoveTowards, endChar, insTextAtDirEnd, prependText]
    by_cases hend : g = ps.length
    · rw [if_pos hend]
      exact nonempty_regionDeleteTowards _ _ _ (allNonempty_append_singleton _ _ h hch)
    · rw [if_neg hend]
      apply nonempty_regionDeleteTowards
      apply allNonempty_set _ _ _ h
      intro h0
      exact hch (List.append_eq_nil.mp h0).1

theorem nonempty_regionSelectTowards (dir : Dir) (ps : List Str) (g a : Nat)
    (h : allNonempty ps) (hv : validTarget dir ps g) :
    allNonempty (regionSelectTowards dir ps g a).1 := by
  cases dir with
  | R =>
    have hg : g < ps.length := hv
    have hs : ps.getD g [] ≠ [] := h _ (listGetD_mem _ _ _ hg)
    have hch : (ps.getD g []).take 1 ≠ [] := take_one_ne_nil _ hs
    simp only [regionSelectTowards, endChar, insTextAtDirEnd, appendText]
    by_cases hag : a = g
    · rw [if_pos hag]
      exact nonempty_regionDeleteTowards _ _ _
        (allNonempty_insertIdx _ _ _ (by omega) hch h)
    · rw [if_neg hag]
      by_cases hg0 : g = 0
      · rw [if_pos hg0]
        exact nonempty_regionDeleteTowards _ _ _
          (allNonempty_insertIdx _ _ _ (by omega) hch h)
      · rw [if_neg hg0]
        apply nonempty_regionDeleteTowards
        apply allNonempty_set _ _ _ h
        intro h0
        exact hch (List.append_eq_nil.mp h0).2
  | L =>
    obtain ⟨hg0, hgle⟩ := hv
    have hglt : g - 1 < ps.length := by omega
    have hs : ps.getD (g - 1) [] ≠ [] := h _ (listGetD_mem _ _ _ hglt)
    have hch : (ps.getD (g - 1) []).drop ((ps.getD (g - 1) []).length - 1) ≠ [] :=
      drop_last_ne_nil _ hs
    simp only [regionSelectTowards, endChar, insTextAtDirEnd, prependText]
    by_cases hag : a = g
    · rw [if_pos hag]
      exact nonempty_regionDeleteTowards _ _ _
        (allNonempty_insertIdx _ _ _ (by omega) hch h)
    · rw [if_neg hag]
      by_cases hend : g = ps.length
      · rw [if_pos hend]
        exact nonempty_regionDeleteTowards _ _ _ (allNonempty_append_singleton _ _ h hch)
      · rw [if_neg hend]
        apply nonempty_regionDeleteTowards
        apply allNonempty_set _ _ _ h
        intro h0
        exact hch (List.append_eq_nil.mp h0).1

/-- C6: the textStr-never-empty invariant is preserved by every public
operation: appendText and prependText keep a nonempty piece nonempty; an
interior splitRight leaves two nonempty pieces; moveTowards, deleteTowards
and selectTowards never leave an empty piece in the region, because the
operation that would empty a piece removes the piece itself instead. -/
theorem textStr_nonempty_invariant :
    (∀ s t : Str, s ≠ [] → appendText s t ≠ []) ∧
    (∀ s t : Str, s ≠ [] → prependText s t ≠ []) ∧
    (∀ (s : Str) (i : Nat), 0 < i → i < s.length →
      (splitRight s i).1 ≠ [] ∧ (splitRight s i).2 ≠ []) ∧
    (∀ (dir : Dir) (ps : List Str) (g : Nat), allNonempty ps → validTarget dir ps g →
      allNonempty (regionMoveTowards dir ps g).1) ∧
    (∀ (dir : Dir) (ps : List Str) (g : Nat), allNonempty ps →
      allNonempty (regionDeleteTowards dir ps g).1) ∧
    (∀ (dir : Dir) (ps : List Str) (g a : Nat), allNonempty ps → validTarget dir ps g →
      allNonempty (regionSelectTowards dir ps g a).1) := by
  refine ⟨?_, ?_, ?_, nonempty_regionMoveTowards, nonempty_regionDeleteTowards,
    nonempty_regionSelectTowards⟩
  · intro s t hs
    simp [appendText, hs]
  · intro s t hs
    simp [prependText, hs]
  · intro s i hi hilen
    constructor
    · intro h0
      simp only [splitRight] at h0
      rcases List.take_eq_nil_iff.mp h0 with h0 | h0
      · omega
      · rw [h0] at hilen
        simp at hilen
    · intro h0
      simp only [splitRight] at h0
      rw [List.drop_eq_nil_iff] at h0
      omega

/-- C6 witness: appending to the one-character run a keeps it nonempty. -/
theorem textStr_nonempty_invariant_inst : appendText ['a'] ['b'] ≠ [] := by
  exact textStr_nonempty_invariant.1 ['a'] ['b'] (by decide)

theorem listGetD_insertIdx_lt {α : Type _} :
    ∀ (l : List α) (i k : Nat) (x d : α), k < i →
      (l.insertIdx i x).getD k d = l.getD k d
  | _, 0, _, _, _, h => by omega
  | [], i + 1, k, x, d, h => by simp [List.insertIdx]
  | a :: l, i + 1, 0, x, d, h => by simp [List.insertIdx_succ_cons]
  | a :: l, i + 1, k + 1, x, d, h => by
    rw [List.insertIdx_succ_cons]
    simp only [List.getD_cons_succ]
    exact listGetD_insertIdx_lt l i k x d (by omega)

theorem listEraseIdx_insertIdx_succ {α : Type _} :
    ∀ (l : List α) (k : Nat) (x : α), k < l.length →
      (l.insertIdx (k + 1) x).eraseIdx k = l.set k x
  | [], k, x, h => by simp at h
  | a :: l, 0, x, h => by simp [List.insertIdx_succ_cons, List.insertIdx_zero]
  | a :: l, k + 1, x, h => by
    rw [List.insertIdx_succ_cons]
    simp only [List.eraseIdx_cons_succ, List.set_cons_succ]
    rw [listEraseIdx_insertIdx_succ l k x (by simpa using h)]

/-- C7: writing a dollar into an empty region moves the cursor just right
of the region and creates a literal escaped-dollar symbol there; on blur
the empty region is removed and the cursor endpoints re-linked, so the net
effect is the empty region replaced by the literal dollar symbol with the
cursor to its right. -/
theorem empty_region_dollar_degenerate (outer : List ONode) (k : Nat)
    (h : outer.getD k (.sym []) = .region []) (hk : k < outer.length) :
    textBlockWriteFull outer k 0 '$' =
      (outer.insertIdx (k + 1) (.sym dollarLatex), .outer (k + 2)) ∧
    textBlockBlur (outer.insertIdx (k + 1) (.sym dollarLatex)) k (k + 2) =
      (outer.set k (.sym dollarLatex), k + 1) := by
  constructor
  · unfold textBlockWriteFull
    rw [h]
    dsimp only
    rw [if_neg (by simp), if_pos rfl]
  · unfold textBlockBlur
    rw [listGetD_insertIdx_lt outer (k + 1) k (.sym dollarLatex) (.sym []) (by omega), h]
    dsimp only
    rw [if_pos (show ([] : List Str).flatten = [] from rfl)]
    rw [listEraseIdx_insertIdx_succ outer k (.sym dollarLatex) hk]
    rw [if_pos (show k < k + 2 by omega)]
    norm_num

/-- C7 witness: a lone empty region degenerates into the literal dollar
symbol. -/
theorem empty_region_dollar_degenerate_inst :
    textBlockWriteFull [ONode.region []] 0 0 '$' =
      (([ONode.region []] : List ONode).insertIdx 1 (.sym dollarLatex), .outer 2) ∧
    textBlockBlur (([ONode.region []] : List ONode).insertIdx 1 (.sym dollarLatex)) 0 2 =
      (([ONode.region []] : List ONode).set 0 (.sym dollarLatex), 1) := by
  exact empty_region_dollar_degenerate [ONode.region []] 0 rfl (by decide)

/-- C8: dispatch of the overridden write of RootMathCommand's inner block:
a dollar in an empty inner block collapses the whole math command into a
literal escaped-dollar symbol at the cursor; a dollar with the cursor at
the inner right (left) boundary exits right (left) without consuming
anything; any non-dollar character, and a dollar strictly in the interior,
goes to the ordinary math-block write. -/
theorem rootMathCommand_write_dispatch (outer : List TNode) (k : Nat)
    (inner : List Char) (g : Nat) (ch : Char) (hg : g ≤ inner.length) :
    (rootMathCmdWrite outer k inner g ch =
        .collapsed (outer.set k (.sym dollarLatex)) (k + 1) ↔ ch = '$' ∧ inner = []) ∧
    (rootMathCmdWrite outer k inner g ch = .exitRight ↔
        ch = '$' ∧ inner ≠ [] ∧ g = inner.length) ∧
    (rootMathCmdWrite outer k inner g ch = .exitLeft ↔
        ch = '$' ∧ inner ≠ [] ∧ g = 0) ∧
    (rootMathCmdWrite outer k inner g ch = .delegated ↔
        ch ≠ '$' ∨ (0 < g ∧ g < inner.length)) := by
  unfold rootMathCmdWrite
  by_cases h1 : ch ≠ '$'
  · rw [if_pos h1]
    refine ⟨by simp_all, by simp_all, by simp_all, by simp_all⟩
  · rw [if_neg h1]
    push_neg at h1
    by_cases h2 : inner = []
    · rw [if_pos h2]
      have hg0 : g = 0 := by
        rw [h2] at hg
        simpa using hg
      refine ⟨by simp_all, by simp_all, by simp_all, ?_⟩
      constructor
      · intro hh
        exact absurd hh (by simp)
      · intro hh
        rcases hh with hh | hh
        · exact absurd h1 hh
        · rw [h2] at hh
          simp at hh
    · rw [if_neg h2]
      by_cases h3 : g = inner.length
      · rw [if_pos h3]
        refine ⟨by simp_all, by simp_all, by simp_all, ?_⟩
        constructor
        · intro hh
          exact absurd hh (by simp)
        · intro hh
          rcases hh with hh | hh
          · exact absurd h1 hh
          · omega
      · rw [if_neg h3]
        by_cases h4 : g = 0
        · rw [if_pos h4]
          refine ⟨by simp_all, by simp_all, by simp_all, ?_⟩
          constructor
          · intro hh
            exact absurd hh (by simp)
          · intro hh
            rcases hh with hh | hh
            · exact absurd h1 hh
            · omega
        · rw [if_neg h4]
          refine ⟨by simp_all, by simp_all, by simp_all, ?_⟩
          constructor
          · intro hh
            right
            omega
          · intro hh
            rfl

/-- C8 witness: a dollar written into the empty inner block of the math
command at index 0 collapses it into the literal dollar symbol. -/
theorem rootMathCommand_write_dispatch_inst :
    rootMathCmdWrite [TNode.mathCmd []] 0 [] 0 '$' =
      .collapsed (([TNode.mathCmd []] : List TNode).set 0 (.sym dollarLatex)) 1 := by
  exact (rootMathCommand_write_dispatch [TNode.mathCmd []] 0 [] 0 '$' (by decide)).1.mpr
    ⟨rfl, rfl⟩

theorem normalizeDOM_map_text (ps : List Str) :
    normalizeDOM (ps.map RNode.text) =
      if ps.flatten = [] then [] else [RNode.text ps.flatten] := by
  induction ps with
  | nil => simp [normalizeDOM]
  | cons s ps ih =>
    simp only [List.map_cons, normalizeDOM, ih]
    by_cases hfl : ps.flatten = []
    · rw [if_pos hfl]
      dsimp only
      by_cases hs : s = []
      · rw [if_pos hs]
        rw [if_pos (by simp [List.flatten_cons, hfl, hs])]
      · rw [if_neg hs]
        rw [if_neg (by simp [List.flatten_cons, hfl, hs])]
        simp [List.flatten_cons, hfl]
    · rw [if_neg hfl]
      dsimp only
      have hne : s ++ ps.flatten ≠ [] := fun hc => hfl (List.append_eq_nil.mp hc).2
      rw [if_neg hne, if_neg (by simpa [List.flatten_cons] using hne)]
      simp [List.flatten_cons]

/-- C9: fuse of a text region's rendered children: it aborts fatally
exactly when the normalized container is nonempty and its single remaining
child is not one text node; when the rendered content mirrors the logical
pieces the abort branch is unreachable, the fuse returns the merged
rendered text, and the region's children are replaced by exactly one
canonical piece holding it; an empty rendered container is a no-op
returning nothing. -/
theorem fuseChildren_spec (rendered : List RNode) :
    (TextBlockFuseChildren rendered = .error () ↔
      normalizeDOM rendered ≠ [] ∧ ∀ s : Str, normalizeDOM rendered ≠ [RNode.text s]) ∧
    (normalizeDOM rendered = [] → TextBlockFuseChildren rendered = .ok none) ∧
    (∀ ps : List Str, rendered = ps.map RNode.text →
      TextBlockFuseChildren rendered = .ok (if ps.flatten = [] then none else some ps.flatten) ∧
      fuseRegionPieces ps rendered = .ok (if ps.flatten = [] then ps else [ps.flatten])) := by
  refine ⟨?_, ?_, ?_⟩
  · unfold TextBlockFuseChildren
    rcases hn : normalizeDOM rendered with _ | ⟨a, rest⟩
    · simp
    · cases a with
      | elem =>
        cases rest with
        | nil => simp
        | cons b r => simp
      | text s =>
        cases rest with
        | nil =>
          constructor
          · intro hc
            exact absurd hc (by simp)
          · intro hc
            exact absurd rfl (hc.2 s)
        | cons b r => simp
  · intro hn
    unfold TextBlockFuseChildren
    rw [hn]
  · intro ps hmap
    subst hmap
    unfold fuseRegionPieces TextBlockFuseChildren
    rw [normalizeDOM_map_text]
    by_cases hfl : ps.flatten = []
    · rw [if_pos hfl, if_pos hfl, if_pos hfl]
      exact ⟨rfl, rfl⟩
    · rw [if_neg hfl, if_neg hfl, if_neg hfl]
      exact ⟨rfl, rfl⟩

/-- C9 witness: fusing the mirror of the two pieces hi and there yields the
single canonical piece hithere. -/
theorem fuseChildren_spec_inst :
    TextBlockFuseChildren ([['h', 'i'], ['y', 'o']].map RNode.text) =
      .ok (if ([['h', 'i'], ['y', 'o']] : List Str).flatten = [] then none
        else some ([['h', 'i'], ['y', 'o']] : List Str).flatten) := by
  exact ((fuseChildren_spec ([['h', 'i'], ['y', 'o']].map RNode.text)).2.2
    [['h', 'i'], ['y', 'o']] rfl).1
